import Mathlib

/-!
Verification of the Tlex virtual streaming substrate.

This file shallowly embeds the streaming core of the repository:

* `app/services/streaming/cache.py`   — chunk cache and file-id cache constants,
* `app/services/streaming/reader.py`  — `VirtualStreamReader` (`__init__`,
  `_find_part_for_offset`, `_ensure_workers`, `read_range`, `_stream_part`),
* `app/services/streaming/manager.py` — reader registry (`release_reader`),
* `app/services/streaming/download.py`— `stream_part` (same loop as
  `VirtualStreamReader._stream_part`),
* `app/core/worker_manager.py`        — `WorkerManager` client pool
  (`get_available_clients`, `try_acquire_one`, `release_clients`,
  `pool_pressure`).

Definitions come first, then the theorems.  Bytes are modelled as
`List Nat`, byte blobs as `List Nat`, lazy byte streams as the finite list
of blobs they yield on the happy path.  Machine integers in the source are
Python arbitrary-precision ints, so `Nat` is exact.
-/

namespace Tlex

/-- Constant `PYROGRAM_CHUNK_SIZE` (cache.py line 6): 1 MiB, the fixed backend chunk. -/
def PYROGRAM_CHUNK_SIZE : Nat := 1024 * 1024

/-- Abbreviation used throughout for the chunk size. -/
def CHUNK : Nat := PYROGRAM_CHUNK_SIZE

/-- Concatenation of a list of blobs (the byte sequence a stream denotes). -/
def concatAll : List (List Nat) → List Nat
  | [] => []
  | b :: rest => b ++ concatAll rest

/-- Content of chunk `i` of a part whose full byte content is `content`:
bytes `[i*CHUNK, (i+1)*CHUNK)`, the trailing chunk being shorter
(spec §3.1 "Chunk"; what `client.stream_media` returns per chunk). -/
def chunkContent (content : List Nat) (i : Nat) : List Nat :=
  (content.drop (i * CHUNK)).take CHUNK

/-- The chunk count computed by `_stream_part` (reader.py line 412,
download.py line 45): `(length + offset % C + C - 1) // C`. -/
def totalChunksNeeded (offset length : Nat) : Nat :=
  (length + offset % CHUNK + CHUNK - 1) / CHUNK

/-- The skip/truncate yield loop shared by the cache-serve phase
(reader.py lines 421-451) and the fetch phase (lines 489-510) of
`_stream_part`.  Input: the successive chunks processed, the pending
`skip_bytes`, and `remaining = length - bytes_yielded`.  Output: the blobs
yielded and the final `remaining` (0 when the loop returned because the
requested length was served). -/
def emitChunks : List (List Nat) → Nat → Nat → List (List Nat) × Nat
  | [], _, remaining => ([], remaining)
  | chunk :: rest, skip, remaining =>
    if 0 < skip ∧ chunk.length ≤ skip then
      emitChunks rest (skip - chunk.length) remaining
    else
      let c := chunk.drop skip
      if c = [] then emitChunks rest 0 remaining
      else if remaining ≤ c.length then ([c.take remaining], 0)
      else
        let r := emitChunks rest 0 (remaining - c.length)
        (c :: r.1, r.2)

/-- The fetch loop of `_stream_part` phase 2 (reader.py lines 475-510,
download.py lines 116-163) on the happy path: for each blob delivered by
`client.stream_media`, first `_cache_chunk(part.id, next_chunk_to_fetch, chunk)`
stores the raw blob, then the skip/truncate logic yields the trimmed bytes.
Returns the cache writes (in order) and the yielded blobs. -/
def fetchLoop (pid : Nat) :
    List (List Nat) → Nat → Nat → Nat →
      List ((Nat × Nat) × List Nat) × List (List Nat)
  | [], _, _, _ => ([], [])
  | chunk :: rest, next, skip, remaining =>
    let w := ((pid, next), chunk)
    if 0 < skip ∧ chunk.length ≤ skip then
      let r := fetchLoop pid rest (next + 1) (skip - chunk.length) remaining
      (w :: r.1, r.2)
    else
      let c := chunk.drop skip
      if c = [] then
        let r := fetchLoop pid rest (next + 1) 0 remaining
        (w :: r.1, r.2)
      else if remaining ≤ c.length then ([w], [c.take remaining])
      else
        let r := fetchLoop pid rest (next + 1) 0 (remaining - c.length)
        (w :: r.1, c :: r.2)

/-- Phase 1 of `_stream_part` (reader.py lines 419-451) walks chunk indices
from `initial_chunk_offset` and stops at the first cache miss; `cache_hits`
counts the consecutive hits.  `cache pid idx` models
`_get_cached_chunk(part_id, idx)`. -/
def cacheHits (cache : Nat → Nat → Option (List Nat)) (pid : Nat) :
    Nat → Nat → Nat
  | _, 0 => 0
  | q, n + 1 =>
    match cache pid q with
    | some _ => cacheHits cache pid (q + 1) n + 1
    | none => 0

/-- Happy-path denotation of `_stream_part` (reader.py lines 394-510,
download.py lines 20-163): the list of blobs yielded when every chunk the
backend is asked for is delivered in full and no error is raised.
Phase 1 serves consecutive cached chunks; if the request is not yet
satisfied, phase 2 issues `client.stream_media(file_id,
offset=next_chunk_to_fetch, limit=chunks_remaining)` and runs the fetch
loop, with `skip_bytes_for_fetch = initial_skip_bytes if cache_hits == 0
else 0` (reader.py line 462). -/
def stream_part (pid : Nat) (cache : Nat → Nat → Option (List Nat))
    (content : List Nat) (offset length : Nat) : List (List Nat) :=
  let q0 := offset / CHUNK
  let r0 := offset % CHUNK
  let total := totalChunksNeeded offset length
  let hits := cacheHits cache pid q0 total
  let cachedChunks := (List.range' q0 hits).map (fun i => (cache pid i).getD [])
  let p1 := emitChunks cachedChunks r0 length
  if p1.2 = 0 then p1.1
  else
    let skipF := if hits = 0 then r0 else 0
    let fetched := (List.range' (q0 + hits) (total - hits)).map (chunkContent content)
    p1.1 ++ (fetchLoop pid fetched (q0 + hits) skipF p1.2).2

/-- Consumption of the inner `async for` of `read_range` (reader.py lines
212-225): each blob is yielded, `current_offset` advances by its length, and
the loop breaks once `current_offset >= end`.  `stop = end - current_offset`
at entry. -/
def consumeBlobs : List (List Nat) → Nat → List (List Nat)
  | [], _ => []
  | b :: rest, stop =>
    if stop ≤ b.length then [b]
    else b :: consumeBlobs rest (stop - b.length)

/-- Model of `MediaPart` (app/models/media.py): the per-part byte-coordinate fields
used by the reader.  `id` is the primary key, `part_index` the sort key,
`start_byte`/`end_byte` the global span, `file_size` the part length. -/
structure MediaPart where
  id : Nat
  part_index : Nat
  start_byte : Nat
  end_byte : Nat
  file_size : Nat
  deriving DecidableEq

/-- Method `MediaPart.contains_byte` (media.py lines 139-141):
`start_byte <= byte_offset < end_byte`. -/
def contains_byte (p : MediaPart) (b : Nat) : Bool :=
  decide (p.start_byte ≤ b) && decide (b < p.end_byte)

/-- Method `MediaPart.local_offset` (media.py lines 143-145). -/
def local_offset (p : MediaPart) (g : Nat) : Nat := g - p.start_byte

/-- Reader field `self._total_size = sum(p.file_size for p in self._parts)`
(reader.py line 52). -/
def totalSize (parts : List MediaPart) : Nat :=
  (parts.map MediaPart.file_size).sum

/-- Method `VirtualStreamReader._find_part_for_offset` (reader.py lines 75-92):
`None` when out of bounds, else the first part whose span contains the
offset. -/
def find_part_for_offset (parts : List MediaPart) (b : Nat) : Option MediaPart :=
  if b < totalSize parts then parts.find? (fun p => contains_byte p b) else none

/-- Contiguity of a parts list starting at byte `acc` (spec §3.2 invariant 1:
each part starts where the previous one ended and spans its size). -/
def contiguousFromB : List MediaPart → Nat → Bool
  | [], _ => true
  | p :: rest, acc =>
    decide (p.start_byte = acc) && decide (p.end_byte = acc + p.file_size) &&
      contiguousFromB rest p.end_byte

/-- The byte-walk of `read_range` (reader.py lines 197-228): starting at
`cur`, locate the part, compute `chunk_len = min(part_remaining, end - cur)`,
stream the part, consume its blobs (breaking once `cur` reaches `end`), and
continue with the next part.  The loop in the source terminates because each
iteration yields at least one byte; `fuel` bounds the number of iterations
and is instantiated with `e - start`, which exceeds the iteration count. -/
def readRangeWalk (parts : List MediaPart) (cache : Nat → Nat → Option (List Nat))
    (content : Nat → List Nat) : Nat → Nat → Nat → List (List Nat)
  | 0, _, _ => []
  | fuel + 1, cur, e =>
    if cur < e then
      match find_part_for_offset parts cur with
      | none => []
      | some p =>
        let lofs := local_offset p cur
        let clen := min (p.file_size - lofs) (e - cur)
        let taken := consumeBlobs (stream_part p.id cache (content p.id) lofs clen) (e - cur)
        taken ++ readRangeWalk parts cache content fuel
          (cur + (taken.map List.length).sum) e
    else []

/-! ## Worker pool (`app/core/worker_manager.py`)

`_client_pool` is the ordered list of `(worker_id, client)` pairs and
`_client_in_use` a dictionary `id(client) → bool` with missing keys read as
`False` (`.get(client_id, False)`).  Clients are identified by `id(client)`,
modelled as `Nat`.  Each pool operation runs under `self._lock`, so one
Lean function application models one atomic critical section. -/

/-- Lookup in `_client_in_use` with default `False`. -/
def dGet (d : List (Nat × Bool)) (k : Nat) : Bool :=
  match d with
  | [] => false
  | (k', v) :: rest => if k' = k then v else dGet rest k

/-- Dictionary assignment `d[k] = v` (update in place, else append). -/
def dSet (d : List (Nat × Bool)) (k : Nat) (v : Bool) : List (Nat × Bool) :=
  match d with
  | [] => [(k, v)]
  | (k', w) :: rest => if k' = k then (k', v) :: rest else (k', w) :: dSet rest k v

/-- Guarded assignment used by `release_clients` (worker_manager.py lines
287-290): `if client_id in self._client_in_use: ... = False`. -/
def dSetIfPresent (d : List (Nat × Bool)) (k : Nat) (v : Bool) : List (Nat × Bool) :=
  match d with
  | [] => []
  | (k', w) :: rest =>
    if k' = k then (k', v) :: rest else (k', w) :: dSetIfPresent rest k v

/-- The pool state: `_client_pool` and `_client_in_use`
(worker_manager.py lines 41-42). -/
structure PoolSt where
  pool : List (Nat × Nat)
  inUse : List (Nat × Bool)
  deriving DecidableEq

/-- The selection loop of `get_available_clients` (worker_manager.py lines
225-231): walk `_client_pool` in order, collect clients not in use, and
break once `len(available) >= limit` (checked after each append).  `acc` is
`len(available)` so far. -/
def takeFreeAux (inUse : List (Nat × Bool)) :
    List (Nat × Nat) → Nat → Nat → List Nat
  | [], _, _ => []
  | (_, c) :: rest, limit, acc =>
    if dGet inUse c then takeFreeAux inUse rest limit acc
    else if limit ≤ acc + 1 then [c]
    else c :: takeFreeAux inUse rest limit (acc + 1)

/-- Marking loop of `get_available_clients` (lines 241-243): set
`_client_in_use[id(client)] = True` for each selected client. -/
def markUsed (inUse : List (Nat × Bool)) : List Nat → List (Nat × Bool)
  | [] => inUse
  | c :: cs => markUsed (dSet inUse c true) cs

/-- Operation `WorkerManager.get_available_clients` (worker_manager.py lines 214-248):
select up to `limit` free clients in pool order and mark them in use, all
inside one `async with self._lock` block; returns `[]` (and changes
nothing) when no client is free. -/
def get_available_clients (st : PoolSt) (limit : Nat) : List Nat × PoolSt :=
  let available := takeFreeAux st.inUse st.pool limit 0
  if available = [] then ([], st)
  else (available, { st with inUse := markUsed st.inUse available })

/-- The scan of `try_acquire_one` (worker_manager.py lines 273-278): the
first pool client not in use. -/
def firstFree (inUse : List (Nat × Bool)) : List (Nat × Nat) → Option Nat
  | [] => none
  | (_, c) :: rest => if dGet inUse c then firstFree inUse rest else some c

/-- Operation `WorkerManager.try_acquire_one` (worker_manager.py lines 262-279):
return the first free client of the pool, marked in use, or `none`. -/
def try_acquire_one (st : PoolSt) : Option Nat × PoolSt :=
  match firstFree st.inUse st.pool with
  | none => (none, st)
  | some c => (some c, { st with inUse := dSet st.inUse c true })

/-- Operation `WorkerManager.release_clients` (worker_manager.py lines 281-294). -/
def release_clients (st : PoolSt) (cs : List Nat) : PoolSt :=
  { st with inUse := cs.foldl (fun d c => dSetIfPresent d c false) st.inUse }

/-- Number of clients of the pool currently marked in use
(`sum(1 for v in self._client_in_use.values() if v)` restricted to pool
members; pool clients are the only keys ever inserted). -/
def inUseCount (st : PoolSt) : Nat :=
  (st.pool.filter (fun wc => dGet st.inUse wc.2)).length

/-- Operation `WorkerManager.pool_pressure` (worker_manager.py lines 250-260) returns
the float `in_use / total` (or `1.0` for an empty pool); we represent the
ratio as the pair (numerator, denominator). -/
def pool_pressure (st : PoolSt) : Nat × Nat :=
  if st.pool.length = 0 then (1, 1) else (inUseCount st, st.pool.length)

/-! ## `read_range` entry (reader.py lines 121-196)

`_ensure_workers` returns `True` immediately when `self._clients` is
non-empty; otherwise it calls
`worker_manager.get_available_clients(limit=3)` and fails when that returns
no client.  `read_range` then raises `RuntimeError("No workers available")`
on failure, picks `client = self._clients[self._rr_counter % len(...)]` and
increments the round-robin counter.  It performs no lease-set scaling:
nothing in `read_range` (or anywhere else in the repository) calls
`pool_pressure` or `try_acquire_one`. -/

/-- Outcome of the entry phase of `read_range`. -/
inductive EntryResult where
  /-- Raised `RuntimeError("No workers available")` (reader.py line 180). -/
  | noWorkers
  /-- Raised `RuntimeError("No clients available")` (reader.py line 187). -/
  | noClients
  /-- Streaming proceeds on `chosen` with the updated client list and
  round-robin counter. -/
  | proceed (clients : List Nat) (chosen : Nat) (rrAfter : Nat)
  deriving DecidableEq

/-- Method `VirtualStreamReader._ensure_workers` (reader.py lines 121-136). -/
def ensure_workers (clients : List Nat) (st : PoolSt) :
    Bool × List Nat × PoolSt :=
  if clients ≠ [] then (true, clients, st)
  else
    let r := get_available_clients st 3
    if r.1 = [] then (false, clients, st)
    else (true, r.1, r.2)

/-- Entry phase of `read_range` (reader.py lines 177-196): ensure workers
(unless in batch mode), then round-robin client selection. -/
def read_range_entry (clients : List Nat) (rr : Nat) (batchMode : Bool)
    (st : PoolSt) : EntryResult × PoolSt :=
  if batchMode then
    if clients = [] then (.noClients, st)
    else (.proceed clients (clients.getD (rr % clients.length) 0) (rr + 1), st)
  else
    let r := ensure_workers clients st
    if r.1 = false then (.noWorkers, r.2.2)
    else if r.2.1 = [] then (.noClients, r.2.2)
    else (.proceed r.2.1 (r.2.1.getD (rr % r.2.1.length) 0) (rr + 1), r.2.2)

/-- Result of one `read_range` call. -/
inductive ReadRangeResult where
  /-- The clamped range was empty: the generator returns before acquiring
  anything (reader.py lines 174-175). -/
  | emptyRange
  /-- Some `RuntimeError` raised before any byte was yielded. -/
  | errored (e : EntryResult)
  /-- The blobs yielded. -/
  | bytes (blobs : List (List Nat))
  deriving DecidableEq

/-- Bytes delivered to the HTTP caller by a `read_range` invocation. -/
def yieldedBytes : ReadRangeResult → List Nat
  | .bytes bs => concatAll bs
  | _ => []

/-- Method `VirtualStreamReader.read_range` (reader.py lines 150-241) on the happy
path: clamp the range (`end = min(end, total_size)`, empty range yields
nothing), acquire workers if the client list is empty, pick the round-robin
client, then walk the byte range.  File-id pre-refresh (lines 183, 195) only
maintains the handle caches and does not affect the bytes yielded when the
backend delivers; it is modelled separately by the fetch state machine. -/
def read_range_run (parts : List MediaPart)
    (cache : Nat → Nat → Option (List Nat)) (content : Nat → List Nat)
    (clients : List Nat) (rr : Nat) (batchMode : Bool) (st : PoolSt)
    (start e : Nat) : ReadRangeResult :=
  let e2 := min e (totalSize parts)
  if start ≥ e2 then .emptyRange
  else
    match (read_range_entry clients rr batchMode st).1 with
    | .proceed _ _ _ =>
      .bytes (readRangeWalk parts cache content (e2 - start) start e2)
    | r => .errored r

/-! ## Reader registry (`app/services/streaming/manager.py`)

`VirtualStreamReader` instances are plain Python objects: an attribute
exists only once assigned.  `release_reader` reads
`reader._active_streams` (manager.py line 89), an attribute that no code in
the repository ever assigns — `VirtualStreamReader.__init__` (reader.py
lines 42-58) does not create it, and neither does anything else — so the
lookup raises `AttributeError`.  We model the instance dictionary
explicitly. -/

/-- Attribute names appearing on readers in reader.py / manager.py. -/
inductive Attr where
  | media_item
  | db_session
  | chunk_size_attr
  | parts_attr
  | total_size_attr
  | current_position
  | workers
  | clients
  | batch_mode_active
  | rr_counter
  | persistent
  | force_released
  | active_streams
  deriving DecidableEq

/-- Python attribute values occurring on readers (opaque objects collapse
to `vobj`). -/
inductive PyVal where
  | vnat (n : Nat)
  | vbool (b : Bool)
  | vlist (cs : List Nat)
  | vobj
  deriving DecidableEq

/-- Exception `AttributeError` raised by a failed attribute lookup. -/
inductive PyExc where
  | attributeError (a : Attr)
  deriving DecidableEq

/-- A reader's instance dictionary. -/
abbrev PyAttrs := List (Attr × PyVal)

/-- Attribute lookup: `AttributeError` when the name was never assigned. -/
def getattr (o : PyAttrs) (a : Attr) : Except PyExc PyVal :=
  match o with
  | [] => .error (.attributeError a)
  | (k, v) :: rest => if k = a then .ok v else getattr rest a

/-- Attribute assignment (updates in place or appends, like a Python
instance `__dict__`). -/
def setattr (o : PyAttrs) (a : Attr) (v : PyVal) : PyAttrs :=
  match o with
  | [] => [(a, v)]
  | (k, w) :: rest => if k = a then (k, v) :: rest else (k, w) :: setattr rest a v

/-- Python `hasattr`: whether the attribute lookup succeeds. -/
def hasattr (o : PyAttrs) (a : Attr) : Bool :=
  match getattr o a with
  | .ok _ => true
  | .error _ => false

/-- The attribute assignments of `VirtualStreamReader.__init__`
(reader.py lines 48-58), in source order; `_current_position` is assigned
twice in the source. -/
def virtualStreamReader_init : PyAttrs :=
  setattr (setattr (setattr (setattr (setattr (setattr (setattr (setattr
    (setattr (setattr (setattr [] .media_item .vobj)
      .db_session .vobj)
      .chunk_size_attr (.vnat PYROGRAM_CHUNK_SIZE))
      .parts_attr .vobj)
      .total_size_attr .vobj)
      .current_position (.vnat 0))
      .current_position (.vnat 0))
      .workers (.vlist []))
      .clients (.vlist []))
      .batch_mode_active (.vbool false))
      .rr_counter (.vnat 0)

/-- A persistent reader as built by `manager.get_virtual_reader` with
`persistent=True` (manager.py lines 66-74): the constructor attributes plus
`_persistent = True`. -/
def persistentReader : PyAttrs :=
  setattr virtualStreamReader_init .persistent (.vbool true)

/-- Outcome of `release_reader` (manager.py lines 80-101). -/
structure ReleaseResult where
  /-- The registry after `self._reader_cache.pop(media_id, None)`. -/
  registry : List (Nat × PyAttrs)
  /-- The popped reader object afterwards, when an entry existed. -/
  reader : Option PyAttrs
  /-- Clients passed to `worker_manager.release_clients`. -/
  released : List Nat
  /-- The exception propagating out, if any. -/
  error : Option PyExc
  deriving DecidableEq

/-- Function `release_reader(media_id)` (manager.py lines 80-101): pop the cache
entry; read `reader._active_streams`; clear `_persistent`, set
`_force_released`; if `reader._clients` is non-empty, release them to the
pool and blank `_clients`/`_workers`.  An `AttributeError` from the
`_active_streams` lookup propagates after the pop. -/
def release_reader (registry : List (Nat × PyAttrs)) (mid : Nat) : ReleaseResult :=
  match registry.lookup mid with
  | none => ⟨registry, none, [], none⟩
  | some r =>
    let reg' := registry.filter (fun kv => kv.1 ≠ mid)
    match getattr r .active_streams with
    | .error exc => ⟨reg', some r, [], some exc⟩
    | .ok _ =>
      let r1 := setattr (setattr r .persistent (.vbool false))
        .force_released (.vbool true)
      match getattr r1 .clients with
      | .ok (.vlist cs) =>
        if cs ≠ [] then
          ⟨reg', some (setattr (setattr r1 .clients (.vlist []))
            .workers (.vlist [])), cs, none⟩
        else ⟨reg', some r1, [], none⟩
      | .ok _ => ⟨reg', some r1, [], none⟩
      | .error exc => ⟨reg', some r1, [], some exc⟩

/-! ## Retry state machine of the fetch phase (reader.py lines 404-607)

The `while attempt < max_retries` loop is driven by what the backend does
on each attempt: how many blobs `client.stream_media` yields before it
terminates or raises.  A script of `FetchAttempt`s supplies those outcomes;
one `fetchStep` is one loop iteration.  Sleeps are recorded in tenths of a
second so that the non-integral waits (`0.5 * attempt`) stay in `Nat`. -/

/-- Control state of the fetch loop: `attempt`, `consecutive_failures`,
`next_chunk_to_fetch`, `chunks_remaining`, the local `file_id` and
`part.telegram_file_id` (as generation numbers, `mint` counting refresh
RPCs), the client-specific `_FILE_ID_CACHE` keys, and the sleeps
performed. -/
structure FetchState where
  attempt : Nat
  consec : Nat
  nextChunk : Nat
  remaining : Nat
  fileId : Nat
  partFileId : Nat
  mint : Nat
  fidCache : List ((Nat × Nat) × Nat)
  sleepsDs : List Nat
  deriving DecidableEq

/-- How one `stream_media` attempt terminates. -/
inductive AttemptEnd where
  | ended
  | flood (secs : Nat)
  | fileRef
  | timeoutErr
  | desync
  | fatal
  deriving DecidableEq

/-- One scripted attempt: blobs delivered before the terminal event, the
terminal event, and whether a `_refresh_file_id` RPC issued during its
handling would succeed. -/
structure FetchAttempt where
  delivered : Nat
  outcome : AttemptEnd
  refreshOk : Bool
  deriving DecidableEq

/-- Errors the loop body can raise. -/
inductive FetchErr where
  /-- Raised `RuntimeError("Failed to refresh expired file reference")`. -/
  | refreshFailed
  /-- The exception is re-raised to the caller. -/
  | propagated
  deriving DecidableEq

/-- Result of one loop iteration. -/
inductive StepRes where
  | next (s : FetchState)
  | done (s : FetchState)
  | failed (s : FetchState) (e : FetchErr)
  deriving DecidableEq

/-- Function `invalidate_file_id_cache(part_id, client_id=id(client))` (cache.py
lines 40-44): delete the client-specific key only. -/
def invalidateFidClient (d : List ((Nat × Nat) × Nat)) (pid cid : Nat) :
    List ((Nat × Nat) × Nat) :=
  d.filter (fun kv => kv.1 ≠ (pid, cid))

/-- One iteration of the retry loop of `_stream_part`
(reader.py lines 472-607), given the scripted attempt outcome.

* delivery advances `next_chunk_to_fetch`/`chunks_remaining` (lines 485-486);
* iterator end with chunks remaining: `consecutive_failures += 1`,
  `wait_time = 1.0 * consecutive_failures`; below 3 failures sleep and retry
  without touching `attempt` (lines 541-543); at 3, sleep, invalidate the
  client-specific file id, refresh, reset the counter, `attempt += 1`
  (lines 522-539);
* `RPCError`: `attempt += 1` first (line 550); `FloodWait` then sleeps
  `e.value` seconds and resumes (lines 572-575); `FileReferenceExpired`
  invalidates and refreshes (lines 559-570);
* `TimeoutError` / session-desync `AttributeError` sleep and retry until
  `attempt` reaches 5, then re-raise (lines 579-600);
* any other exception propagates (lines 602-604). -/
def fetchStep (pid cid : Nat) (s : FetchState) (a : FetchAttempt) : StepRes :=
  let d := min a.delivered s.remaining
  let s1 := { s with nextChunk := s.nextChunk + d, remaining := s.remaining - d }
  match a.outcome with
  | .ended =>
    if s1.remaining = 0 then .done s1
    else
      let c := s.consec + 1
      if 3 ≤ c then
        let s2 := { s1 with
          sleepsDs := s1.sleepsDs ++ [10 * c],
          fidCache := invalidateFidClient s1.fidCache pid cid }
        if a.refreshOk then
          .next { s2 with
            fileId := s2.mint + 1,
            partFileId := s2.mint + 1,
            mint := s2.mint + 1,
            consec := 0,
            attempt := s2.attempt + 1 }
        else .failed s2 .refreshFailed
      else .next { s1 with consec := c, sleepsDs := s1.sleepsDs ++ [10 * c] }
  | .flood n =>
    .next { s1 with attempt := s1.attempt + 1, sleepsDs := s1.sleepsDs ++ [10 * n] }
  | .fileRef =>
    let s2 := { s1 with
      attempt := s1.attempt + 1,
      fidCache := invalidateFidClient s1.fidCache pid cid }
    if a.refreshOk then
      .next { s2 with
        fileId := s2.mint + 1,
        partFileId := s2.mint + 1,
        mint := s2.mint + 1 }
    else .failed s2 .refreshFailed
  | .timeoutErr =>
    let s2 := { s1 with attempt := s1.attempt + 1 }
    if s2.attempt < 5 then
      .next { s2 with sleepsDs := s2.sleepsDs ++ [20 * s2.attempt] }
    else .failed s2 .propagated
  | .desync =>
    let s2 := { s1 with attempt := s1.attempt + 1 }
    if s2.attempt < 5 then
      .next { s2 with sleepsDs := s2.sleepsDs ++ [5 * s2.attempt] }
    else .failed s2 .propagated
  | .fatal => .failed s1 .propagated

/-- Result of running the retry loop against a script. -/
inductive RunRes where
  /-- All requested chunks delivered (`return`, line 546 or 504/510). -/
  | complete (s : FetchState)
  /-- The `while` guard failed: `RuntimeError(f"Failed to stream part ...
  after 5 retries")` (reader.py lines 606-607). -/
  | fatalExhausted (s : FetchState)
  /-- An exception propagated out of the loop body. -/
  | error (s : FetchState) (e : FetchErr)
  /-- Script exhausted with the loop still running. -/
  | pending (s : FetchState)
  deriving DecidableEq

/-- The retry loop `while attempt < max_retries` (reader.py line 472),
driven by a script of attempt outcomes. -/
def runFetch (pid cid : Nat) : FetchState → List FetchAttempt → RunRes
  | s, [] => if 5 ≤ s.attempt then .fatalExhausted s else .pending s
  | s, a :: rest =>
    if 5 ≤ s.attempt then .fatalExhausted s
    else
      match fetchStep pid cid s a with
      | .done s' => .complete s'
      | .failed s' e => .error s' e
      | .next s' => runFetch pid cid s' rest

/-- Fetch-loop entry state (reader.py lines 404-469): `attempt = 0`,
`consecutive_failures = 0`, resume position and remaining count from the
cache-serve phase, the current `file_id`, no sleeps yet. -/
def initFetchState (nextChunk remaining fileId : Nat)
    (fidCache : List ((Nat × Nat) × Nat)) : FetchState :=
  ⟨0, 0, nextChunk, remaining, fileId, fileId, fileId, fidCache, []⟩

/-- Lookup in the file-id cache (`_FILE_ID_CACHE.get`). -/
def fidLookup (d : List ((Nat × Nat) × Nat)) (key : Nat × Nat) : Option Nat :=
  match d with
  | [] => none
  | (k, v) :: rest => if k = key then some v else fidLookup rest key

/-- Clients handed to the reader by the entry phase. -/
def entryClients : EntryResult → List Nat
  | .proceed cs _ _ => cs
  | _ => []

/-- Free clients of the pool (those whose `_client_in_use` flag is unset). -/
def freeCount (st : PoolSt) : Nat :=
  (st.pool.filter (fun wc => !(dGet st.inUse wc.2))).length

/-- The chunk size is positive. -/
theorem CHUNK_pos : 0 < CHUNK := by decide

@[simp] theorem concatAll_nil : concatAll [] = [] := rfl

@[simp] theorem concatAll_cons (b : List Nat) (rest : List (List Nat)) :
    concatAll (b :: rest) = b ++ concatAll rest := rfl

/-- Concatenation distributes over appending blob lists. -/
theorem concatAll_append (xs ys : List (List Nat)) :
    concatAll (xs ++ ys) = concatAll xs ++ concatAll ys := by
  induction xs with
  | nil => simp
  | cons b rest ih => simp [ih]

/-- Total byte count of a blob list. -/
theorem concatAll_length (xs : List (List Nat)) :
    (concatAll xs).length = (xs.map List.length).sum := by
  induction xs with
  | nil => simp
  | cons b rest ih => simp [ih]

/-- The blobs yielded by the fetch loop are exactly those of the shared
skip/truncate loop: caching does not alter the yielded bytes. -/
theorem fetchLoop_yields (pid : Nat) :
    ∀ (chunks : List (List Nat)) (next skip remaining : Nat),
      (fetchLoop pid chunks next skip remaining).2 =
        (emitChunks chunks skip remaining).1 := by
  intro chunks
  induction chunks with
  | nil => intro next skip remaining; rfl
  | cons chunk rest ih =>
    intro next skip remaining
    simp only [fetchLoop, emitChunks]
    by_cases h1 : 0 < skip ∧ chunk.length ≤ skip
    · rw [if_pos h1, if_pos h1, ih]
    · rw [if_neg h1, if_neg h1]
      by_cases h2 : chunk.drop skip = []
      · rw [if_pos h2, if_pos h2, ih]
      · rw [if_neg h2, if_neg h2]
        by_cases h3 : remaining ≤ (chunk.drop skip).length
        · rw [if_pos h3, if_pos h3]
        · rw [if_neg h3, if_neg h3]
          simp only [ih]

/-- Semantics of the skip/truncate loop: the concatenation of its output is a
drop-then-take of the concatenation of its input chunks, and the final
`remaining` is what could not be served from those chunks. -/
theorem emitChunks_spec :
    ∀ (chunks : List (List Nat)) (skip remaining : Nat),
      concatAll (emitChunks chunks skip remaining).1 =
        ((concatAll chunks).drop skip).take remaining ∧
      (emitChunks chunks skip remaining).2 =
        remaining - ((concatAll chunks).length - skip) := by
  intro chunks
  induction chunks with
  | nil =>
    intro skip remaining
    simp [emitChunks]
  | cons chunk rest ih =>
    intro skip remaining
    simp only [emitChunks, concatAll_cons]
    by_cases h1 : 0 < skip ∧ chunk.length ≤ skip
    · rw [if_pos h1]
      obtain ⟨ih1, ih2⟩ := ih (skip - chunk.length) remaining
      constructor
      · rw [ih1, List.drop_append_eq_append_drop,
          List.drop_eq_nil_of_le h1.2, List.nil_append]
      · rw [ih2, List.length_append]
        have := h1.2
        omega
    · rw [if_neg h1]
      by_cases h2 : chunk.drop skip = []
      · -- possible only when skip = 0 and chunk = []
        rw [if_pos h2]
        have hle : chunk.length ≤ skip := List.drop_eq_nil_iff.mp h2
        have hskip0 : skip = 0 := by
          rcases Nat.eq_zero_or_pos skip with hs | hs
          · exact hs
          · exact absurd ⟨hs, hle⟩ h1
        have hchunk : chunk = [] := by
          rw [hskip0] at hle
          exact List.eq_nil_of_length_eq_zero (by omega)
        subst hchunk; subst hskip0
        simpa using ih 0 remaining
      · have hsk : skip < chunk.length := by
          rcases Nat.lt_or_ge skip chunk.length with hs | hs
          · exact hs
          · exact absurd (List.drop_eq_nil_iff.mpr hs) h2
        have hdlen : (chunk.drop skip).length = chunk.length - skip :=
          List.length_drop skip chunk
        rw [if_neg h2]
        by_cases h3 : remaining ≤ (chunk.drop skip).length
        · rw [if_pos h3]
          constructor
          · simp only [concatAll_cons, concatAll_nil, List.append_nil]
            rw [List.drop_append_eq_append_drop, List.take_append_eq_append_take]
            have hlen : remaining - (chunk.drop skip).length = 0 := by omega
            rw [hlen, List.take_zero, List.append_nil]
          · rw [List.length_append]
            omega
        · rw [if_neg h3]
          obtain ⟨ih1, ih2⟩ := ih 0 (remaining - (chunk.drop skip).length)
          have hz : skip - chunk.length = 0 := by omega
          constructor
          · simp only [concatAll_cons]
            rw [ih1, List.drop_zero, List.drop_append_eq_append_drop, hz,
              List.drop_zero, List.take_append_eq_append_take,
              List.take_of_length_le (by omega : (chunk.drop skip).length ≤ remaining)]
          · rw [ih2, List.length_append]
            omega

/-- The hit counter never exceeds the window size. -/
theorem cacheHits_le (cache : Nat → Nat → Option (List Nat)) (pid : Nat) :
    ∀ (n q : Nat), cacheHits cache pid q n ≤ n := by
  intro n
  induction n with
  | zero => intro q; simp [cacheHits]
  | succ n ih =>
    intro q
    simp only [cacheHits]
    cases cache pid q with
    | some b => exact Nat.succ_le_succ (ih (q + 1))
    | none => exact Nat.zero_le _

/-- Every index below the hit count is present in the cache. -/
theorem cacheHits_isSome (cache : Nat → Nat → Option (List Nat)) (pid : Nat) :
    ∀ (n q k : Nat), k < cacheHits cache pid q n →
      (cache pid (q + k)).isSome := by
  intro n
  induction n with
  | zero => intro q k h; simp [cacheHits] at h
  | succ n ih =>
    intro q k h
    cases hc : cache pid q with
    | none => simp only [cacheHits, hc] at h; omega
    | some b =>
      simp only [cacheHits, hc] at h
      cases k with
      | zero => simp [hc]
      | succ k =>
        have hq : q + (k + 1) = (q + 1) + k := by omega
        rw [hq]
        exact ih (q + 1) k (by omega)

/-- Concatenating consecutive chunk contents recovers a contiguous slice of
the part. -/
theorem concat_chunkContent (content : List Nat) :
    ∀ (h q : Nat),
      concatAll ((List.range' q h).map (chunkContent content)) =
        (content.drop (q * CHUNK)).take (h * CHUNK) := by
  intro h
  induction h with
  | zero => intro q; simp
  | succ h ih =>
    intro q
    rw [List.range'_succ, List.map_cons, concatAll_cons, ih (q + 1)]
    have hmul : (h + 1) * CHUNK = CHUNK + h * CHUNK := by ring
    have hadd : (q + 1) * CHUNK = q * CHUNK + CHUNK := by ring
    rw [chunkContent, hmul, hadd, List.take_add, List.drop_drop]

/-- Chunk-index/byte-offset decomposition. -/
theorem arith_offset (offset : Nat) :
    offset / CHUNK * CHUNK + offset % CHUNK = offset := by
  simp only [CHUNK, PYROGRAM_CHUNK_SIZE]
  omega

/-- The in-chunk remainder is below the chunk size. -/
theorem arith_r0_lt (offset : Nat) : offset % CHUNK < CHUNK := by
  simp only [CHUNK, PYROGRAM_CHUNK_SIZE]
  omega

/-- The chunk window requested by `_stream_part` covers at least the
requested bytes: `r0 + length ≤ total * CHUNK`. -/
theorem arith_total_ge (offset length : Nat) :
    offset % CHUNK + length ≤ totalChunksNeeded offset length * CHUNK := by
  simp only [totalChunksNeeded, CHUNK, PYROGRAM_CHUNK_SIZE]
  omega

/-- Coherent cache entries are the true chunk contents, so the chunks served
by phase 1 equal the corresponding slices of the part. -/
theorem cachedChunks_eq (pid : Nat) (cache : Nat → Nat → Option (List Nat))
    (content : List Nat) (q0 n : Nat)
    (hco : ∀ i b, cache pid i = some b → b = chunkContent content i) :
    (List.range' q0 (cacheHits cache pid q0 n)).map (fun i => (cache pid i).getD [])
      = (List.range' q0 (cacheHits cache pid q0 n)).map (chunkContent content) := by
  apply List.map_congr_left
  intro a ha
  rw [List.mem_range'_1] at ha
  have hk : a - q0 < cacheHits cache pid q0 n := by omega
  have hsome := cacheHits_isSome cache pid n q0 (a - q0) hk
  have ha' : q0 + (a - q0) = a := by omega
  rw [ha'] at hsome
  cases hc : cache pid a with
  | none => rw [hc] at hsome; simp at hsome
  | some b => simpa [hc] using hco a b hc

/-- Core of the `_stream_part` happy-path correctness: with the cache
coherent, the concatenation of the blobs yielded by the two phases is the
requested byte slice of the part. -/
theorem stream_part_core (pid : Nat) (content : List Nat)
    (q0 r0 total hits length : Nat) (cachedChunks : List (List Nat))
    (hcc : cachedChunks = (List.range' q0 hits).map (chunkContent content))
    (hhits : hits ≤ total)
    (hr0 : r0 < CHUNK)
    (hpos : 0 < length)
    (htot : r0 + length ≤ total * CHUNK)
    (hlen : q0 * CHUNK + r0 + length ≤ content.length) :
    concatAll (
      if (emitChunks cachedChunks r0 length).2 = 0 then
        (emitChunks cachedChunks r0 length).1
      else
        (emitChunks cachedChunks r0 length).1 ++
          (fetchLoop pid
            ((List.range' (q0 + hits) (total - hits)).map (chunkContent content))
            (q0 + hits) (if hits = 0 then r0 else 0)
            (emitChunks cachedChunks r0 length).2).2) =
      (content.drop (q0 * CHUNK + r0)).take length := by
  obtain ⟨hj1, hrem⟩ := emitChunks_spec cachedChunks r0 length
  have hCJ : concatAll cachedChunks = (content.drop (q0 * CHUNK)).take (hits * CHUNK) := by
    rw [hcc, concat_chunkContent]
  have hCJlen : (concatAll cachedChunks).length
      = min (hits * CHUNK) (content.length - q0 * CHUNK) := by
    rw [hCJ, List.length_take, List.length_drop]
  by_cases hz : (emitChunks cachedChunks r0 length).2 = 0
  · rw [if_pos hz, hj1, hCJ, List.drop_take, List.drop_drop, List.take_take]
    have hle : length ≤ hits * CHUNK - r0 := by
      rw [hrem, hCJlen] at hz
      simp only [CHUNK, PYROGRAM_CHUNK_SIZE] at hz hlen ⊢
      omega
    rw [min_eq_left hle]
  · rw [if_neg hz, concatAll_append, fetchLoop_yields]
    by_cases hh : hits = 0
    · subst hh
      have hp1a : (emitChunks cachedChunks r0 length).1 = [] := by rw [hcc]; rfl
      have hp1b : (emitChunks cachedChunks r0 length).2 = length := by rw [hcc]; rfl
      rw [if_pos rfl, hp1a, hp1b]
      obtain ⟨hj2, _⟩ := emitChunks_spec
        ((List.range' (q0 + 0) (total - 0)).map (chunkContent content)) r0 length
      rw [hj2, concat_chunkContent]
      simp only [concatAll_nil, List.nil_append, Nat.add_zero, Nat.sub_zero]
      rw [List.drop_take, List.drop_drop, List.take_take]
      have hle2 : length ≤ total * CHUNK - r0 := by
        simp only [CHUNK, PYROGRAM_CHUNK_SIZE] at htot ⊢
        omega
      rw [min_eq_left hle2]
    · rw [if_neg hh]
      obtain ⟨hj2, _⟩ := emitChunks_spec
        ((List.range' (q0 + hits) (total - hits)).map (chunkContent content)) 0
        (emitChunks cachedChunks r0 length).2
      rw [hj2, concat_chunkContent, List.drop_zero]
      have hx : (concatAll cachedChunks).length = hits * CHUNK := by
        rw [hCJlen]
        have hzz := hz
        rw [hrem, hCJlen] at hzz
        simp only [CHUNK, PYROGRAM_CHUNK_SIZE] at hzz hlen ⊢
        omega
      have hrem_eq : (emitChunks cachedChunks r0 length).2
          = length - (hits * CHUNK - r0) := by
        rw [hrem, hx]
      have hfirst_le : hits * CHUNK - r0 ≤ length := by
        have hzz := hz
        rw [hrem_eq] at hzz
        omega
      rw [hj1, hCJ, List.drop_take, List.drop_drop, List.take_take,
        min_eq_right hfirst_le, hrem_eq, List.take_take]
      have hsecond_le : length - (hits * CHUNK - r0) ≤ (total - hits) * CHUNK := by
        simp only [CHUNK, PYROGRAM_CHUNK_SIZE] at htot ⊢
        omega
      rw [min_eq_left hsecond_le]
      have hsplit : length = (hits * CHUNK - r0) + (length - (hits * CHUNK - r0)) := by
        omega
      conv_rhs => rw [hsplit, List.take_add]
      rw [List.drop_drop]
      have hidx : q0 * CHUNK + r0 + (hits * CHUNK - r0) = (q0 + hits) * CHUNK := by
        have hh1 : 1 ≤ hits := by omega
        simp only [CHUNK, PYROGRAM_CHUNK_SIZE] at hr0 ⊢
        have : 1024 * 1024 ≤ hits * (1024 * 1024) := Nat.le_mul_of_pos_left _ (by omega)
        omega
      rw [hidx]

/-- Happy-path correctness of `_stream_part`: if every cached chunk is the
true chunk content and the backend delivers each requested chunk in full,
the yielded blobs concatenate to exactly the requested byte slice. -/
theorem stream_part_join (pid : Nat) (cache : Nat → Nat → Option (List Nat))
    (content : List Nat) (offset length : Nat)
    (hco : ∀ i b, cache pid i = some b → b = chunkContent content i)
    (hpos : 0 < length) (hlen : offset + length ≤ content.length) :
    concatAll (stream_part pid cache content offset length) =
      (content.drop offset).take length := by
  have hcore := stream_part_core pid content (offset / CHUNK) (offset % CHUNK)
    (totalChunksNeeded offset length)
    (cacheHits cache pid (offset / CHUNK) (totalChunksNeeded offset length)) length
    ((List.range' (offset / CHUNK)
        (cacheHits cache pid (offset / CHUNK) (totalChunksNeeded offset length))).map
      (fun i => (cache pid i).getD []))
    (cachedChunks_eq pid cache content (offset / CHUNK)
      (totalChunksNeeded offset length) hco)
    (cacheHits_le cache pid (totalChunksNeeded offset length) (offset / CHUNK))
    (arith_r0_lt offset) hpos (arith_total_ge offset length)
    (by rw [arith_offset]; exact hlen)
  rw [arith_offset] at hcore
  simpa only [stream_part] using hcore

/-- Byte-count corollary: `_stream_part` yields exactly `length` bytes. -/
theorem stream_part_total_bytes (pid : Nat) (cache : Nat → Nat → Option (List Nat))
    (content : List Nat) (offset length : Nat)
    (hco : ∀ i b, cache pid i = some b → b = chunkContent content i)
    (hpos : 0 < length) (hlen : offset + length ≤ content.length) :
    (concatAll (stream_part pid cache content offset length)).length = length := by
  rw [stream_part_join pid cache content offset length hco hpos hlen,
    List.length_take, List.length_drop]
  omega

/-- The first blob yielded by the skip/truncate loop: the first chunk with
its first `skip` bytes removed, truncated to the requested length. -/
theorem emitChunks_head (ch : List Nat) (rest : List (List Nat)) (skip rem : Nat)
    (hsk : skip < ch.length) (hrem : 0 < rem) :
    ∃ t, (emitChunks (ch :: rest) skip rem).1 = ((ch.drop skip).take rem) :: t := by
  simp only [emitChunks]
  have h1 : ¬(0 < skip ∧ ch.length ≤ skip) := by
    intro h
    omega
  rw [if_neg h1]
  have h2 : ¬ch.drop skip = [] := by
    intro he
    have := List.drop_eq_nil_iff.mp he
    omega
  rw [if_neg h2]
  by_cases h3 : rem ≤ (ch.drop skip).length
  · rw [if_pos h3]
    exact ⟨[], rfl⟩
  · rw [if_neg h3]
    exact ⟨_, by rw [List.take_of_length_le (by omega)]⟩

/-- Every blob yielded by the skip/truncate loop is nonempty. -/
theorem emitChunks_nonempty :
    ∀ (chunks : List (List Nat)) (skip rem : Nat), 0 < rem →
      ∀ b ∈ (emitChunks chunks skip rem).1, b ≠ [] := by
  intro chunks
  induction chunks with
  | nil => intro skip rem _ b hb; simp [emitChunks] at hb
  | cons chunk rest ih =>
    intro skip rem hrem b hb
    simp only [emitChunks] at hb
    by_cases h1 : 0 < skip ∧ chunk.length ≤ skip
    · rw [if_pos h1] at hb
      exact ih _ _ hrem b hb
    · rw [if_neg h1] at hb
      by_cases h2 : chunk.drop skip = []
      · rw [if_pos h2] at hb
        exact ih _ _ hrem b hb
      · rw [if_neg h2] at hb
        have hclen : 0 < (chunk.drop skip).length := List.length_pos.mpr h2
        by_cases h3 : rem ≤ (chunk.drop skip).length
        · rw [if_pos h3] at hb
          simp only [List.mem_singleton] at hb
          subst hb
          intro he
          have h4 := congrArg List.length he
          rw [List.length_take] at h4
          simp only [List.length_nil] at h4
          omega
        · rw [if_neg h3] at hb
          rcases List.mem_cons.mp hb with hb | hb
          · subst hb; exact h2
          · exact ih _ _ (by omega) b hb

/-- Every blob yielded by `_stream_part` on the happy path is nonempty. -/
theorem stream_part_nonempty (pid : Nat) (cache : Nat → Nat → Option (List Nat))
    (content : List Nat) (offset length : Nat) (hpos : 0 < length) :
    ∀ b ∈ stream_part pid cache content offset length, b ≠ [] := by
  intro b hb
  simp only [stream_part] at hb
  split at hb
  · exact emitChunks_nonempty _ _ _ hpos b hb
  · rcases List.mem_append.mp hb with hb | hb
    · exact emitChunks_nonempty _ _ _ hpos b hb
    · rw [fetchLoop_yields] at hb
      refine emitChunks_nonempty _ _ _ ?_ b hb
      omega

/-- When the blobs sum to at most the remaining byte budget, the inner loop
consumes the part stream completely. -/
theorem consumeBlobs_all :
    ∀ (bs : List (List Nat)) (stop : Nat), (∀ b ∈ bs, b ≠ []) →
      (bs.map List.length).sum ≤ stop → consumeBlobs bs stop = bs := by
  intro bs
  induction bs with
  | nil => intro stop _ _; rfl
  | cons b rest ih =>
    intro stop hne hsum
    simp only [List.map_cons, List.sum_cons] at hsum
    simp only [consumeBlobs]
    by_cases h : stop ≤ b.length
    · have hrest : rest = [] := by
        cases rest with
        | nil => rfl
        | cons r t =>
          exfalso
          have hr : r ≠ [] := hne r (by simp)
          have hrlen : 0 < r.length := List.length_pos.mpr hr
          simp only [List.map_cons, List.sum_cons] at hsum
          omega
      rw [if_pos h, hrest]
    · rw [if_neg h]
      rw [ih (stop - b.length) (fun x hx => hne x (by simp [hx])) (by omega)]

/-- On a contiguous parts list, the linear scan finds the unique part
containing any in-range offset. -/
theorem find_part_contig :
    ∀ (parts : List MediaPart) (acc b : Nat),
      contiguousFromB parts acc = true → acc ≤ b → b < acc + totalSize parts →
      ∃ p, parts.find? (fun p => contains_byte p b) = some p ∧
        p.start_byte ≤ b ∧ b < p.end_byte ∧
        p.end_byte = p.start_byte + p.file_size ∧ p ∈ parts := by
  intro parts
  induction parts with
  | nil =>
    intro acc b _ hle hlt
    simp only [totalSize, List.map_nil, List.sum_nil] at hlt
    omega
  | cons p rest ih =>
    intro acc b hc hle hlt
    simp only [contiguousFromB, Bool.and_eq_true, decide_eq_true_eq] at hc
    obtain ⟨⟨hs, he⟩, hrest⟩ := hc
    simp only [totalSize, List.map_cons, List.sum_cons] at hlt
    by_cases hb : b < p.end_byte
    · refine ⟨p, ?_, by omega, hb, by omega, by simp⟩
      have hcb : contains_byte p b = true := by
        simp only [contains_byte, Bool.and_eq_true, decide_eq_true_eq]
        omega
      simp [List.find?, hcb]
    · have hcb : contains_byte p b = false := by
        simp [contains_byte, hb]
      obtain ⟨q, hq1, hq2, hq3, hq4, hq5⟩ := ih p.end_byte b hrest (by omega)
        (by simp only [totalSize]; omega)
      refine ⟨q, ?_, hq2, hq3, hq4, by simp [hq5]⟩
      simp [List.find?, hcb, hq1]

/-- The walk yields nothing once the cursor has reached the end. -/
theorem readRangeWalk_stop (parts : List MediaPart)
    (cache : Nat → Nat → Option (List Nat)) (content : Nat → List Nat) :
    ∀ (fuel cur e : Nat), e ≤ cur →
      readRangeWalk parts cache content fuel cur e = [] := by
  intro fuel cur e h
  cases fuel with
  | zero => rfl
  | succ fuel => simp only [readRangeWalk]; rw [if_neg (by omega)]

/-- Total bytes yielded by the `read_range` byte-walk over contiguous parts
with a coherent cache and full backend delivery: exactly `e - cur`. -/
theorem readRangeWalk_length (parts : List MediaPart)
    (cache : Nat → Nat → Option (List Nat)) (content : Nat → List Nat)
    (hctg : contiguousFromB parts 0 = true)
    (hco : ∀ p ∈ parts, ∀ i b, cache p.id i = some b → b = chunkContent (content p.id) i)
    (hsz : ∀ p ∈ parts, (content p.id).length = p.file_size) :
    ∀ (fuel cur e : Nat), cur < e → e ≤ totalSize parts → e - cur ≤ fuel →
      ((readRangeWalk parts cache content fuel cur e).map List.length).sum
        = e - cur := by
  intro fuel
  induction fuel with
  | zero => intro cur e h1 _ h3; omega
  | succ fuel ih =>
    intro cur e hcur htotal hfuel
    obtain ⟨p, hfind, hpb1, hpb2, hpe, hpmem⟩ :=
      find_part_contig parts 0 cur hctg (Nat.zero_le cur) (by omega)
    have hf : find_part_for_offset parts cur = some p := by
      rw [find_part_for_offset, if_pos (by omega)]
      exact hfind
    simp only [readRangeWalk]
    rw [if_pos hcur]
    have hclen_pos : 0 < min (p.file_size - local_offset p cur) (e - cur) := by
      simp only [local_offset]
      omega
    have hclen_le : local_offset p cur + min (p.file_size - local_offset p cur) (e - cur)
        ≤ (content p.id).length := by
      rw [hsz p hpmem]
      simp only [local_offset]
      omega
    have hblen : ((stream_part p.id cache (content p.id) (local_offset p cur)
        (min (p.file_size - local_offset p cur) (e - cur))).map List.length).sum
        = min (p.file_size - local_offset p cur) (e - cur) := by
      rw [← concatAll_length]
      exact stream_part_total_bytes p.id cache (content p.id) _ _
        (hco p hpmem) hclen_pos hclen_le
    have htaken : consumeBlobs (stream_part p.id cache (content p.id)
        (local_offset p cur) (min (p.file_size - local_offset p cur) (e - cur)))
        (e - cur)
        = stream_part p.id cache (content p.id) (local_offset p cur)
            (min (p.file_size - local_offset p cur) (e - cur)) := by
      apply consumeBlobs_all
      · exact stream_part_nonempty p.id cache (content p.id) _ _ hclen_pos
      · rw [hblen]
        omega
    split
    · next heq => rw [hf] at heq; cases heq
    · next p' heq =>
      rw [hf] at heq
      injection heq with heq
      subst heq
      rw [htaken, List.map_append, List.sum_append, hblen]
      by_cases hdone : cur + min (p.file_size - local_offset p cur) (e - cur) = e
      · rw [hdone, readRangeWalk_stop parts cache content fuel e e (le_refl e)]
        simp only [List.map_nil, List.sum_nil]
        omega
      · rw [ih (cur + min (p.file_size - local_offset p cur) (e - cur)) e
          (by omega) htotal (by omega)]
        omega

/-- Reading a key just assigned. -/
theorem dGet_dSet_self (d : List (Nat × Bool)) (k : Nat) (v : Bool) :
    dGet (dSet d k v) k = v := by
  induction d with
  | nil => simp [dGet, dSet]
  | cons kv rest ih =>
    obtain ⟨k', w⟩ := kv
    simp only [dSet]
    by_cases h : k' = k
    · rw [if_pos h]; simp [dGet, h]
    · rw [if_neg h]; simp [dGet, h, ih]

/-- Assignment leaves other keys unchanged. -/
theorem dGet_dSet_ne (d : List (Nat × Bool)) (k k' : Nat) (v : Bool)
    (h : k ≠ k') : dGet (dSet d k v) k' = dGet d k' := by
  induction d with
  | nil => simp [dGet, dSet, h]
  | cons kv rest ih =>
    obtain ⟨k0, w⟩ := kv
    simp only [dSet]
    by_cases h0 : k0 = k
    · rw [if_pos h0]
      subst h0
      simp [dGet, h]
    · rw [if_neg h0]
      simp only [dGet]
      by_cases h1 : k0 = k'
      · simp [h1]
      · simp [h1, ih]

/-- Every client collected by the selection loop is free at selection. -/
theorem takeFreeAux_free (inUse : List (Nat × Bool)) :
    ∀ (pool : List (Nat × Nat)) (limit acc c : Nat),
      c ∈ takeFreeAux inUse pool limit acc → dGet inUse c = false := by
  intro pool
  induction pool with
  | nil => intro limit acc c h; simp [takeFreeAux] at h
  | cons wc rest ih =>
    intro limit acc c h
    obtain ⟨w, c'⟩ := wc
    simp only [takeFreeAux] at h
    by_cases hu : dGet inUse c'
    · rw [if_pos hu] at h
      exact ih limit acc c h
    · rw [if_neg hu] at h
      by_cases hl : limit ≤ acc + 1
      · rw [if_pos hl] at h
        simp only [List.mem_singleton] at h
        subst h
        simpa using hu
      · rw [if_neg hl] at h
        rcases List.mem_cons.mp h with h | h
        · subst h; simpa using hu
        · exact ih limit (acc + 1) c h

/-- The selected clients form a sublist of the pool's client column. -/
theorem takeFreeAux_sublist (inUse : List (Nat × Bool)) :
    ∀ (pool : List (Nat × Nat)) (limit acc : Nat),
      (takeFreeAux inUse pool limit acc).Sublist (pool.map Prod.snd) := by
  intro pool
  induction pool with
  | nil => intro limit acc; simp [takeFreeAux]
  | cons wc rest ih =>
    intro limit acc
    obtain ⟨w, c'⟩ := wc
    simp only [takeFreeAux, List.map_cons]
    by_cases hu : dGet inUse c'
    · rw [if_pos hu]
      exact (ih limit acc).cons c'
    · rw [if_neg hu]
      by_cases hl : limit ≤ acc + 1
      · rw [if_pos hl]
        exact (List.nil_sublist _).cons₂ c'
      · rw [if_neg hl]
        exact (ih limit (acc + 1)).cons₂ c'

/-- Marking only sets flags to `True`: a leased client stays leased. -/
theorem dGet_markUsed_of_true :
    ∀ (cs : List Nat) (d : List (Nat × Bool)) (c : Nat),
      dGet d c = true → dGet (markUsed d cs) c = true := by
  intro cs
  induction cs with
  | nil => intro d c h; exact h
  | cons b cs ih =>
    intro d c h
    simp only [markUsed]
    apply ih
    by_cases hbc : b = c
    · subst hbc; rw [dGet_dSet_self]
    · rw [dGet_dSet_ne _ _ _ _ hbc]; exact h

/-- Every marked client reads as in use afterwards. -/
theorem dGet_markUsed_mem :
    ∀ (cs : List Nat) (inUse : List (Nat × Bool)) (c : Nat),
      c ∈ cs → dGet (markUsed inUse cs) c = true := by
  intro cs
  induction cs with
  | nil => intro inUse c h; simp at h
  | cons a cs ih =>
    intro inUse c h
    simp only [markUsed]
    by_cases hc : c ∈ cs
    · exact ih _ c hc
    · have hca : c = a := by
        rcases List.mem_cons.mp h with h | h
        · exact h
        · exact absurd h hc
      subst hca
      exact dGet_markUsed_of_true cs _ c (dGet_dSet_self inUse c true)

/-- Marking does not touch clients outside the marked list. -/
theorem dGet_markUsed_not_mem :
    ∀ (cs : List Nat) (inUse : List (Nat × Bool)) (c : Nat),
      c ∉ cs → dGet (markUsed inUse cs) c = dGet inUse c := by
  intro cs
  induction cs with
  | nil => intro inUse c _; rfl
  | cons a cs ih =>
    intro inUse c h
    simp only [markUsed]
    rw [ih _ c (fun hx => h (by simp [hx]))]
    have hca : a ≠ c := fun he => h (by simp [he])
    rw [dGet_dSet_ne _ _ _ _ hca]

/-- A client in use before `markUsed` is still in use after. -/
theorem dGet_markUsed_true (cs : List Nat) (inUse : List (Nat × Bool)) (c : Nat)
    (h : dGet inUse c = true) : dGet (markUsed inUse cs) c = true := by
  by_cases hc : c ∈ cs
  · exact dGet_markUsed_mem cs inUse c hc
  · rw [dGet_markUsed_not_mem cs inUse c hc]; exact h

/-- The client found by `try_acquire_one`'s scan is free. -/
theorem firstFree_spec (inUse : List (Nat × Bool)) :
    ∀ (pool : List (Nat × Nat)) (c : Nat),
      firstFree inUse pool = some c → dGet inUse c = false := by
  intro pool
  induction pool with
  | nil => intro c h; simp [firstFree] at h
  | cons wc rest ih =>
    intro c h
    obtain ⟨w, c'⟩ := wc
    simp only [firstFree] at h
    by_cases hu : dGet inUse c'
    · rw [if_pos hu] at h
      exact ih c h
    · rw [if_neg hu] at h
      injection h with h
      subst h
      simpa using hu

/-- After the guarded clear, the key reads `False` (missing keys already
read `False`). -/
theorem dGet_dSetIfPresent_self (d : List (Nat × Bool)) (k : Nat) :
    dGet (dSetIfPresent d k false) k = false := by
  induction d with
  | nil => rfl
  | cons kv rest ih =>
    obtain ⟨k', w⟩ := kv
    simp only [dSetIfPresent]
    by_cases h : k' = k
    · rw [if_pos h]; simp [dGet, h]
    · rw [if_neg h]; simp [dGet, h, ih]

/-- The guarded assignment leaves other keys unchanged. -/
theorem dGet_dSetIfPresent_ne (d : List (Nat × Bool)) (k k' : Nat) (v : Bool)
    (h : k ≠ k') : dGet (dSetIfPresent d k v) k' = dGet d k' := by
  induction d with
  | nil => rfl
  | cons kv rest ih =>
    obtain ⟨k0, w⟩ := kv
    simp only [dSetIfPresent]
    by_cases h0 : k0 = k
    · rw [if_pos h0]
      subst h0
      simp [dGet, h]
    · rw [if_neg h0]
      simp only [dGet]
      by_cases h1 : k0 = k'
      · simp [h1]
      · simp [h1, ih]

/-- Releasing a list of clients does not touch clients outside it. -/
theorem dGet_release_foldl_not_mem :
    ∀ (cs : List Nat) (d : List (Nat × Bool)) (c : Nat), c ∉ cs →
      dGet (cs.foldl (fun d c' => dSetIfPresent d c' false) d) c = dGet d c := by
  intro cs
  induction cs with
  | nil => intro d c _; rfl
  | cons a cs ih =>
    intro d c h
    simp only [List.foldl_cons]
    rw [ih _ c (fun hx => h (by simp [hx]))]
    exact dGet_dSetIfPresent_ne d a c false (fun he => h (by simp [he]))

/-- Every released client reads free afterwards. -/
theorem dGet_release_mem :
    ∀ (cs : List Nat) (d : List (Nat × Bool)) (c : Nat), c ∈ cs →
      dGet (cs.foldl (fun d c' => dSetIfPresent d c' false) d) c = false := by
  intro cs
  induction cs with
  | nil => intro d c h; simp at h
  | cons a cs ih =>
    intro d c h
    simp only [List.foldl_cons]
    by_cases hc : c ∈ cs
    · exact ih _ c hc
    · have hca : c = a := by
        rcases List.mem_cons.mp h with h | h
        · exact h
        · exact absurd h hc
      subst hca
      rw [dGet_release_foldl_not_mem cs _ c hc]
      exact dGet_dSetIfPresent_self d c

/-- With a non-empty client list, the entry phase of `read_range` proceeds
with the round-robin selection and leaves the pool untouched. -/
theorem read_range_entry_nonempty (clients : List Nat) (rr : Nat) (st : PoolSt)
    (hcl : clients ≠ []) :
    read_range_entry clients rr false st
      = (.proceed clients (clients.getD (rr % clients.length) 0) (rr + 1), st) := by
  simp only [read_range_entry, ensure_workers]
  rw [if_neg Bool.false_ne_true, if_pos hcl]
  simp [hcl]

/-- Claim C1: for a media item whose parts are contiguous and any
`0 ≤ s < e ≤ total_size`, provided the chunk cache is coherent and the
backend delivers each requested chunk of every part in full, the blobs
yielded by `read_range(s, e)` concatenate to exactly `e - s` bytes. -/
theorem C1_read_range_yields_exact (parts : List MediaPart)
    (cache : Nat → Nat → Option (List Nat)) (content : Nat → List Nat)
    (clients : List Nat) (rr : Nat) (st : PoolSt) (s e : Nat)
    (hctg : contiguousFromB parts 0 = true)
    (hco : ∀ p ∈ parts, ∀ i b, cache p.id i = some b →
      b = chunkContent (content p.id) i)
    (hsz : ∀ p ∈ parts, (content p.id).length = p.file_size)
    (hse : s < e) (he : e ≤ totalSize parts) (hcl : clients ≠ []) :
    (yieldedBytes (read_range_run parts cache content clients rr false st s e)).length
      = e - s := by
  have he2 : min e (totalSize parts) = e := min_eq_left he
  simp only [read_range_run, he2]
  rw [if_neg (by omega : ¬ s ≥ e), read_range_entry_nonempty clients rr st hcl]
  show (concatAll (readRangeWalk parts cache content (e - s) s e)).length = e - s
  rw [concatAll_length]
  exact readRangeWalk_length parts cache content hctg hco hsz (e - s) s e hse he
    (le_refl _)

/-- Witness for C1: a two-part media (sizes 3 and 4), cold cache, range
`[2, 5)` crossing the part seam, yielding exactly 3 bytes. -/
theorem C1_witness :
    (yieldedBytes (read_range_run
      [⟨1, 0, 0, 3, 3⟩, ⟨2, 1, 3, 7, 4⟩] (fun _ _ => none)
      (fun pid => if pid = 1 then [10, 11, 12]
        else if pid = 2 then [20, 21, 22, 23] else [])
      [5] 0 false ⟨[(1, 5)], []⟩ 2 5)).length = 5 - 2 :=
  C1_read_range_yields_exact _ _ _ _ _ _ _ _ (by decide)
    (fun _ _ _ _ h => nomatch h) (by decide) (by decide) (by decide) (by decide)

/-- Core of the first-blob property: whether chunk `q0` is served from
cache or fetched, the first yielded blob is chunk `q0` with its first `r0`
bytes skipped (truncated to the requested length). -/
theorem stream_part_head_core (pid : Nat) (content : List Nat)
    (q0 r0 total hits length : Nat) (cachedChunks : List (List Nat))
    (hcc : cachedChunks = (List.range' q0 hits).map (chunkContent content))
    (hhits : hits ≤ total)
    (hr0 : r0 < CHUNK)
    (hpos : 0 < length)
    (htot : r0 + length ≤ total * CHUNK)
    (hlen : q0 * CHUNK + r0 + length ≤ content.length) :
    (if (emitChunks cachedChunks r0 length).2 = 0 then
        (emitChunks cachedChunks r0 length).1
      else
        (emitChunks cachedChunks r0 length).1 ++
          (fetchLoop pid
            ((List.range' (q0 + hits) (total - hits)).map (chunkContent content))
            (q0 + hits) (if hits = 0 then r0 else 0)
            (emitChunks cachedChunks r0 length).2).2).head?
      = some (((chunkContent content q0).drop r0).take length) := by
  have hsk : r0 < (chunkContent content q0).length := by
    rw [chunkContent, List.length_take, List.length_drop]
    simp only [CHUNK, PYROGRAM_CHUNK_SIZE] at hr0 hlen ⊢
    omega
  by_cases hh : hits = 0
  · subst hh
    have hcnil : cachedChunks = [] := by rw [hcc]; rfl
    have hp2 : (emitChunks cachedChunks r0 length).2 = length := by rw [hcnil]; rfl
    have hp1nil : (emitChunks cachedChunks r0 length).1 = [] := by rw [hcnil]; rfl
    rw [if_neg (by rw [hp2]; omega), fetchLoop_yields, hp1nil, List.nil_append,
      hp2, if_pos rfl]
    have htpos : 0 < total := by
      simp only [CHUNK, PYROGRAM_CHUNK_SIZE] at htot
      omega
    obtain ⟨t, ht⟩ : ∃ t, total = t + 1 := ⟨total - 1, by omega⟩
    rw [Nat.add_zero, Nat.sub_zero, ht, List.range'_succ, List.map_cons]
    obtain ⟨tl, htl⟩ := emitChunks_head (chunkContent content q0)
      ((List.range' (q0 + 1) t).map (chunkContent content)) r0 length hsk hpos
    rw [htl]
    rfl
  · obtain ⟨t, ht⟩ : ∃ t, hits = t + 1 := ⟨hits - 1, by omega⟩
    have hfirst : cachedChunks
        = chunkContent content q0 ::
            ((List.range' (q0 + 1) t).map (chunkContent content)) := by
      rw [hcc, ht, List.range'_succ, List.map_cons]
    obtain ⟨tl, htl⟩ := emitChunks_head (chunkContent content q0)
      ((List.range' (q0 + 1) t).map (chunkContent content)) r0 length hsk hpos
    by_cases hz : (emitChunks cachedChunks r0 length).2 = 0
    · rw [if_pos hz, hfirst, htl]
      rfl
    · rw [if_neg hz, hfirst, htl]
      rfl

/-- First-blob property of `_stream_part`: the first yielded blob is the
first covered chunk stripped of the first `offset % CHUNK` bytes. -/
theorem stream_part_head (pid : Nat) (cache : Nat → Nat → Option (List Nat))
    (content : List Nat) (offset length : Nat)
    (hco : ∀ i b, cache pid i = some b → b = chunkContent content i)
    (hpos : 0 < length) (hlen : offset + length ≤ content.length) :
    (stream_part pid cache content offset length).head?
      = some (((chunkContent content (offset / CHUNK)).drop (offset % CHUNK)).take
          length) := by
  have hcore := stream_part_head_core pid content (offset / CHUNK) (offset % CHUNK)
    (totalChunksNeeded offset length)
    (cacheHits cache pid (offset / CHUNK) (totalChunksNeeded offset length)) length
    ((List.range' (offset / CHUNK)
        (cacheHits cache pid (offset / CHUNK) (totalChunksNeeded offset length))).map
      (fun i => (cache pid i).getD []))
    (cachedChunks_eq pid cache content (offset / CHUNK)
      (totalChunksNeeded offset length) hco)
    (cacheHits_le cache pid (totalChunksNeeded offset length) (offset / CHUNK))
    (arith_r0_lt offset) hpos (arith_total_ge offset length)
    (by rw [arith_offset]; exact hlen)
  simpa only [stream_part] using hcore

/-- Claim C4: a fetch of `(offset, length)` with `0 < length` and
`offset + length ≤ part.file_size` covers exactly the chunk window
`[offset / C, ceil((offset + length) / C))` — the code's chunk count
`(length + offset % C + C - 1) / C` equals that window's size — the first
yielded blob omits the first `offset % C` bytes of the first chunk, and the
yielded stream is truncated to exactly `length` bytes. -/
theorem C4_fetch_chunk_window (pid : Nat) (cache : Nat → Nat → Option (List Nat))
    (content : List Nat) (offset length : Nat)
    (hco : ∀ i b, cache pid i = some b → b = chunkContent content i)
    (hpos : 0 < length) (hlen : offset + length ≤ content.length) :
    totalChunksNeeded offset length
        = (offset + length + CHUNK - 1) / CHUNK - offset / CHUNK
    ∧ (stream_part pid cache content offset length).head?
        = some (((chunkContent content (offset / CHUNK)).drop (offset % CHUNK)).take
            length)
    ∧ (concatAll (stream_part pid cache content offset length)).length = length := by
  refine ⟨?_, ?_, ?_⟩
  · simp only [totalChunksNeeded, CHUNK, PYROGRAM_CHUNK_SIZE]
    omega
  · exact stream_part_head pid cache content offset length hco hpos hlen
  · exact stream_part_total_bytes pid cache content offset length hco hpos hlen

/-- Witness for C4: a 5-byte part read at `offset 2, length 3` on a cold
cache. -/
theorem C4_witness :
    totalChunksNeeded 2 3 = (2 + 3 + CHUNK - 1) / CHUNK - 2 / CHUNK
    ∧ (stream_part 9 (fun _ _ => none) [0, 1, 2, 3, 4] 2 3).head?
        = some (((chunkContent [0, 1, 2, 3, 4] (2 / CHUNK)).drop (2 % CHUNK)).take 3)
    ∧ (concatAll (stream_part 9 (fun _ _ => none) [0, 1, 2, 3, 4] 2 3)).length = 3 :=
  C4_fetch_chunk_window 9 (fun _ _ => none) [0, 1, 2, 3, 4] 2 3
    (fun _ _ h => nomatch h) (by decide) (by decide)

/-- Claim C10: every chunk-cache write performed by the fetch loop stores,
under key `(part_id, chunk_index)` with indices running consecutively from
`next_chunk_to_fetch`, the full unmodified blob delivered by the backend:
`_cache_chunk` runs before the skip/truncate trimming, so the trimmed bytes
yielded to the caller are never what is cached. -/
theorem C10_cache_writes_full_blob (pid : Nat) :
    ∀ (chunks : List (List Nat)) (next skip remaining : Nat),
      ∃ m, m ≤ chunks.length ∧
        (fetchLoop pid chunks next skip remaining).1
          = ((List.range' next m).zip (chunks.take m)).map
              (fun ic => ((pid, ic.1), ic.2)) := by
  intro chunks
  induction chunks with
  | nil => intro next skip remaining; exact ⟨0, by simp, rfl⟩
  | cons chunk rest ih =>
    intro next skip remaining
    simp only [fetchLoop]
    by_cases h1 : 0 < skip ∧ chunk.length ≤ skip
    · rw [if_pos h1]
      obtain ⟨m, hm, heq⟩ := ih (next + 1) (skip - chunk.length) remaining
      refine ⟨m + 1, by simpa using hm, ?_⟩
      rw [List.range'_succ, List.take_succ_cons, List.zip_cons_cons,
        List.map_cons, heq]
    · rw [if_neg h1]
      by_cases h2 : chunk.drop skip = []
      · rw [if_pos h2]
        obtain ⟨m, hm, heq⟩ := ih (next + 1) 0 remaining
        refine ⟨m + 1, by simpa using hm, ?_⟩
        rw [List.range'_succ, List.take_succ_cons, List.zip_cons_cons,
          List.map_cons, heq]
      · rw [if_neg h2]
        by_cases h3 : remaining ≤ (chunk.drop skip).length
        · rw [if_pos h3]
          exact ⟨1, by simp, rfl⟩
        · rw [if_neg h3]
          obtain ⟨m, hm, heq⟩ :=
            ih (next + 1) 0 (remaining - (chunk.drop skip).length)
          refine ⟨m + 1, by simpa using hm, ?_⟩
          rw [List.range'_succ, List.take_succ_cons, List.zip_cons_cons,
            List.map_cons, heq]

/-- Claim C9: the pool never double-leases.  Every client returned by
`get_available_clients` or `try_acquire_one` is free at the moment of
selection and is marked in use in the same critical section; the clients of
one call are pairwise distinct (given that `_client_pool` holds distinct
client objects); a client marked in use is never handed out again by either
operation, and stays marked until `release_clients` clears it. -/
theorem C9_pool_no_double_lease (st : PoolSt) (limit c : Nat)
    (hnd : (st.pool.map Prod.snd).Nodup) :
    (∀ c' ∈ (get_available_clients st limit).1, dGet st.inUse c' = false)
    ∧ (get_available_clients st limit).1.Nodup
    ∧ (∀ c' ∈ (get_available_clients st limit).1,
        dGet ((get_available_clients st limit).2).inUse c' = true)
    ∧ (∀ c', (try_acquire_one st).1 = some c' →
        dGet st.inUse c' = false ∧ dGet ((try_acquire_one st).2).inUse c' = true)
    ∧ (dGet st.inUse c = true →
        c ∉ (get_available_clients st limit).1
        ∧ (try_acquire_one st).1 ≠ some c
        ∧ dGet ((get_available_clients st limit).2).inUse c = true
        ∧ dGet ((try_acquire_one st).2).inUse c = true)
    ∧ (∀ cs, c ∈ cs → dGet ((release_clients st cs).inUse) c = false) := by
  by_cases hav : takeFreeAux st.inUse st.pool limit 0 = []
  · have hga : get_available_clients st limit = ([], st) := by
      simp only [get_available_clients]
      rw [if_pos hav]
    cases hff : firstFree st.inUse st.pool with
    | none =>
      have hta : try_acquire_one st = (none, st) := by
        simp only [try_acquire_one, hff]
      rw [hga, hta]
      refine ⟨by simp, by simp, by simp, ?_, ?_, ?_⟩
      · intro c' h
        exact absurd h (by simp)
      · intro htrue
        exact ⟨by simp, by simp, htrue, htrue⟩
      · intro cs hc
        exact dGet_release_mem cs st.inUse c hc
    | some c0 =>
      have hta : try_acquire_one st
          = (some c0, { st with inUse := dSet st.inUse c0 true }) := by
        simp only [try_acquire_one, hff]
      rw [hga, hta]
      refine ⟨by simp, by simp, by simp, ?_, ?_, ?_⟩
      · intro c' h
        injection h with h
        subst h
        exact ⟨firstFree_spec st.inUse st.pool _ hff, dGet_dSet_self _ _ _⟩
      · intro htrue
        refine ⟨by simp, ?_, htrue, ?_⟩
        · intro heq
          injection heq with heq
          subst heq
          have hfree := firstFree_spec st.inUse st.pool _ hff
          rw [htrue] at hfree
          simp at hfree
        · by_cases hc0 : c0 = c
          · subst hc0; exact dGet_dSet_self _ _ _
          · rw [dGet_dSet_ne _ _ _ _ hc0]; exact htrue
      · intro cs hc
        exact dGet_release_mem cs st.inUse c hc
  · have hga : get_available_clients st limit
        = (takeFreeAux st.inUse st.pool limit 0,
           { st with inUse := markUsed st.inUse (takeFreeAux st.inUse st.pool limit 0) }) := by
      simp only [get_available_clients]
      rw [if_neg hav]
    cases hff : firstFree st.inUse st.pool with
    | none =>
      have hta : try_acquire_one st = (none, st) := by
        simp only [try_acquire_one, hff]
      rw [hga, hta]
      refine ⟨?_, ?_, ?_, ?_, ?_, ?_⟩
      · intro c' h
        exact takeFreeAux_free st.inUse st.pool limit 0 c' h
      · exact (takeFreeAux_sublist st.inUse st.pool limit 0).nodup hnd
      · intro c' h
        exact dGet_markUsed_mem _ _ _ h
      · intro c' h
        exact absurd h (by simp)
      · intro htrue
        refine ⟨?_, by simp, ?_, htrue⟩
        · intro hc
          have hfree := takeFreeAux_free st.inUse st.pool limit 0 c hc
          rw [htrue] at hfree
          simp at hfree
        · exact dGet_markUsed_of_true _ _ _ htrue
      · intro cs hc
        exact dGet_release_mem cs st.inUse c hc
    | some c0 =>
      have hta : try_acquire_one st
          = (some c0, { st with inUse := dSet st.inUse c0 true }) := by
        simp only [try_acquire_one, hff]
      rw [hga, hta]
      refine ⟨?_, ?_, ?_, ?_, ?_, ?_⟩
      · intro c' h
        exact takeFreeAux_free st.inUse st.pool limit 0 c' h
      · exact (takeFreeAux_sublist st.inUse st.pool limit 0).nodup hnd
      · intro c' h
        exact dGet_markUsed_mem _ _ _ h
      · intro c' h
        injection h with h
        subst h
        exact ⟨firstFree_spec st.inUse st.pool _ hff, dGet_dSet_self _ _ _⟩
      · intro htrue
        refine ⟨?_, ?_, ?_, ?_⟩
        · intro hc
          have hfree := takeFreeAux_free st.inUse st.pool limit 0 c hc
          rw [htrue] at hfree
          simp at hfree
        · intro heq
          injection heq with heq
          subst heq
          have hfree := firstFree_spec st.inUse st.pool _ hff
          rw [htrue] at hfree
          simp at hfree
        · exact dGet_markUsed_of_true _ _ _ htrue
        · by_cases hc0 : c0 = c
          · subst hc0; exact dGet_dSet_self _ _ _
          · rw [dGet_dSet_ne _ _ _ _ hc0]; exact htrue
      · intro cs hc
        exact dGet_release_mem cs st.inUse c hc

/-- Witness for C9: a two-client pool; acquisition yields distinct clients,
and releasing a leased client frees it. -/
theorem C9_witness :
    (get_available_clients ⟨[(1, 10), (1, 11)], []⟩ 3).1.Nodup
    ∧ dGet ((release_clients ⟨[(1, 10), (1, 11)], [(10, true)]⟩ [10]).inUse) 10
        = false :=
  ⟨(C9_pool_no_double_lease ⟨[(1, 10), (1, 11)], []⟩ 3 10 (by decide)).2.1,
   (C9_pool_no_double_lease ⟨[(1, 10), (1, 11)], [(10, true)]⟩ 3 10
      (by decide)).2.2.2.2.2 [10] (by decide)⟩

/-- Counterexample to C6 as stated: five FloodWait signals alone exhaust
the `max_retries = 5` budget — `attempt += 1` (reader.py line 550) runs
before the FloodWait branch (lines 572-575) — so the fetch fails fatally
with the post-loop `RuntimeError` even though only rate-limit signals
occurred. -/
theorem C6_counterexample :
    runFetch 1 2 (initFetchState 0 4 7 [])
      [⟨0, .flood 1, true⟩, ⟨0, .flood 1, true⟩, ⟨0, .flood 1, true⟩,
       ⟨0, .flood 1, true⟩, ⟨0, .flood 1, true⟩]
      = .fatalExhausted ⟨5, 0, 0, 4, 7, 7, 7, [], [10, 10, 10, 10, 10]⟩ := by
  decide

/-- Claim C6 (amended): on a rate-limit signal of `N` seconds the engine
sleeps `N` seconds and resumes from the current chunk — position, remaining
count, failure counter and handle are unchanged — but the signal counts
against the 5-attempt budget, so five rate-limit signals alone fail the
fetch fatally. -/
theorem C6_flood_counts_against_attempts (pid cid n d : Nat) (s : FetchState)
    (rOk : Bool) (h5 : s.attempt < 5) :
    fetchStep pid cid s ⟨d, .flood n, rOk⟩
      = .next { s with
          nextChunk := s.nextChunk + min d s.remaining,
          remaining := s.remaining - min d s.remaining,
          attempt := s.attempt + 1,
          sleepsDs := s.sleepsDs ++ [10 * n] }
    ∧ runFetch pid cid (initFetchState 0 1 0 [])
        [⟨0, .flood n, rOk⟩, ⟨0, .flood n, rOk⟩, ⟨0, .flood n, rOk⟩,
         ⟨0, .flood n, rOk⟩, ⟨0, .flood n, rOk⟩]
        = .fatalExhausted ⟨5, 0, 0, 1, 0, 0, 0, [],
            [10 * n, 10 * n, 10 * n, 10 * n, 10 * n]⟩ := by
  constructor
  · rfl
  · simp only [runFetch, fetchStep, initFetchState]
    rfl

/-- Witness for C6: a FloodWait of 2 seconds at attempt 0 sleeps 2 s,
keeps the chunk position, and moves the attempt counter to 1. -/
theorem C6_witness :
    fetchStep 1 2 (initFetchState 3 4 7 []) ⟨0, .flood 2, true⟩
      = .next ⟨1, 0, 3, 4, 7, 7, 7, [], [20]⟩ := by
  have h := (C6_flood_counts_against_attempts 1 2 2 0 (initFetchState 3 4 7 [])
    true (by decide)).1
  rw [h]
  decide

/-- Deleting the client-specific key from the file-id cache makes its
lookup miss. -/
theorem invalidateFidClient_lookup (d : List ((Nat × Nat) × Nat)) (pid cid : Nat) :
    fidLookup (invalidateFidClient d pid cid) (pid, cid) = none := by
  induction d with
  | nil => rfl
  | cons kv rest ih =>
    obtain ⟨k, v⟩ := kv
    simp only [invalidateFidClient, List.filter_cons]
    by_cases hk : k = (pid, cid)
    · have hd : (decide (k ≠ (pid, cid))) = false := by simp [hk]
      rw [hd]
      simpa [invalidateFidClient] using ih
    · have hd : (decide (k ≠ (pid, cid))) = true := by simp [hk]
      rw [hd]
      simp only [if_true]
      simp only [fidLookup, if_neg hk]
      simpa [invalidateFidClient] using ih

/-- Claim C7: when the backend iterator ends early with chunks still
remaining, the first two consecutive incomplete attempts only back off
(1 s × counter) and retry; on the third, the engine invalidates the
per-client cached file id, refreshes it via the message descriptor (a new
id is minted and installed both locally and on the part), resets the
consecutive-failure counter to zero, and re-enters the loop resuming from
the next un-fetched chunk — the position advanced by this attempt's
deliveries is kept, never reset. -/
theorem C7_refresh_after_three_incomplete (pid cid d : Nat) (s : FetchState)
    (h5 : s.attempt < 5) (hrem : d < s.remaining) :
    (s.consec = 2 →
      fetchStep pid cid s ⟨d, .ended, true⟩
        = .next { s with
            nextChunk := s.nextChunk + min d s.remaining,
            remaining := s.remaining - min d s.remaining,
            consec := 0,
            attempt := s.attempt + 1,
            fileId := s.mint + 1,
            partFileId := s.mint + 1,
            mint := s.mint + 1,
            fidCache := invalidateFidClient s.fidCache pid cid,
            sleepsDs := s.sleepsDs ++ [10 * (s.consec + 1)] })
    ∧ fidLookup (invalidateFidClient s.fidCache pid cid) (pid, cid) = none
    ∧ (s.consec < 2 →
      fetchStep pid cid s ⟨d, .ended, true⟩
        = .next { s with
            consec := s.consec + 1,
            nextChunk := s.nextChunk + min d s.remaining,
            remaining := s.remaining - min d s.remaining,
            sleepsDs := s.sleepsDs ++ [10 * (s.consec + 1)] }) := by
  refine ⟨?_, invalidateFidClient_lookup s.fidCache pid cid, ?_⟩
  · intro hc
    simp only [fetchStep]
    rw [if_neg (by omega : ¬(s.remaining - min d s.remaining = 0)),
      if_pos (by omega : 3 ≤ s.consec + 1)]
    simp only [if_true]
  · intro hc
    simp only [fetchStep]
    rw [if_neg (by omega : ¬(s.remaining - min d s.remaining = 0)),
      if_neg (by omega : ¬3 ≤ s.consec + 1)]

/-- Witness for C7: the third consecutive incomplete attempt (counter at 2)
with one chunk delivered: the client-specific file id is invalidated, a new
id minted, the counter reset, and the position advanced to the next
un-fetched chunk. -/
theorem C7_witness :
    fetchStep 1 2 ⟨0, 2, 5, 3, 7, 7, 9, [((1, 2), 7)], []⟩ ⟨1, .ended, true⟩
      = .next ⟨1, 0, 6, 2, 10, 10, 10, [], [30]⟩ := by
  have h := (C7_refresh_after_three_incomplete 1 2 1 ⟨0, 2, 5, 3, 7, 7, 9,
    [((1, 2), 7)], []⟩ (by decide) (by decide)).1 rfl
  rw [h]
  decide

/-- The selection loop collects `min (limit - acc)` and the number of free
clients. -/
theorem takeFreeAux_length (inUse : List (Nat × Bool)) :
    ∀ (pool : List (Nat × Nat)) (limit acc : Nat), acc < limit →
      (takeFreeAux inUse pool limit acc).length
        = min (limit - acc) ((pool.filter (fun wc => !(dGet inUse wc.2))).length) := by
  intro pool
  induction pool with
  | nil => intro limit acc _; simp [takeFreeAux]
  | cons wc rest ih =>
    intro limit acc hacc
    obtain ⟨w, c⟩ := wc
    simp only [takeFreeAux, List.filter_cons]
    by_cases hu : dGet inUse c
    · rw [if_pos hu]
      have hp : (!(dGet inUse c)) = false := by simp [hu]
      simp only [hp, Bool.false_eq_true, if_false]
      exact ih limit acc hacc
    · rw [if_neg hu]
      have hp : (!(dGet inUse c)) = true := by simp [hu]
      simp only [hp, if_true]
      by_cases hl : limit ≤ acc + 1
      · rw [if_pos hl]
        simp only [List.length_cons, List.length_nil]
        omega
      · rw [if_neg hl]
        simp only [List.length_cons]
        rw [ih limit (acc + 1) (by omega)]
        omega

/-- Counterexample to C8 as stated: with an empty client list and two free
pool clients, `read_range` acquires two sessions
(`get_available_clients(limit=3)`, reader.py line 127), not exactly one. -/
theorem C8_counterexample :
    (entryClients (read_range_entry [] 0 false ⟨[(1, 10), (1, 11)], []⟩).1).length
      ≠ 1 := by
  decide

/-- Claim C8 (amended): when `read_range` starts with an empty client list
it acquires the first `min(3, free)` free clients of the pool (limit 3, not
exactly one); if the pool has no free client, `_ensure_workers` fails and
`read_range` raises `RuntimeError("No workers available")` before yielding
any byte. -/
theorem C8_empty_leaseset_acquires_up_to_three (parts : List MediaPart)
    (cache : Nat → Nat → Option (List Nat)) (content : Nat → List Nat)
    (rr : Nat) (st : PoolSt) (s e : Nat)
    (hse : s < min e (totalSize parts)) :
    (entryClients (read_range_entry [] rr false st).1).length
      = min 3 (freeCount st)
    ∧ (freeCount st = 0 →
        read_range_run parts cache content [] rr false st s e
          = .errored .noWorkers) := by
  have hlen := takeFreeAux_length st.inUse st.pool 3 0 (by omega)
  by_cases hav : takeFreeAux st.inUse st.pool 3 0 = []
  · have hfc : min 3 (freeCount st) = 0 := by
      have h0 := hlen
      rw [hav] at h0
      simp only [List.length_nil, Nat.sub_zero] at h0
      simp only [freeCount]
      omega
    have hentry : read_range_entry [] rr false st = (.noWorkers, st) := by
      simp [read_range_entry, ensure_workers, get_available_clients, hav]
    refine ⟨?_, ?_⟩
    · rw [hentry, hfc]
      rfl
    · intro _
      simp only [read_range_run]
      rw [if_neg (by omega : ¬ s ≥ min e (totalSize parts)), hentry]
  · have hentry : read_range_entry [] rr false st
        = (.proceed (takeFreeAux st.inUse st.pool 3 0)
            ((takeFreeAux st.inUse st.pool 3 0).getD
              (rr % (takeFreeAux st.inUse st.pool 3 0).length) 0) (rr + 1),
           { st with inUse := markUsed st.inUse (takeFreeAux st.inUse st.pool 3 0) }) := by
      simp [read_range_entry, ensure_workers, get_available_clients, hav]
    refine ⟨?_, ?_⟩
    · rw [hentry]
      simp only [entryClients]
      rw [hlen]
      simp only [Nat.sub_zero]
      rfl
    · intro hfc
      have h0 : (takeFreeAux st.inUse st.pool 3 0).length = 0 := by
        rw [hlen]
        simp only [freeCount] at hfc
        omega
      exact absurd (List.eq_nil_of_length_eq_zero h0) hav

/-- Witness for C8 (amended): with two free clients, the entry acquires
`min 3 2 = 2` of them; with the single pool client already leased,
`read_range` fails with the no-workers error. -/
theorem C8_witness :
    (entryClients (read_range_entry [] 0 false ⟨[(1, 10), (1, 11)], []⟩).1).length
      = min 3 (freeCount ⟨[(1, 10), (1, 11)], []⟩)
    ∧ read_range_run [⟨1, 0, 0, 3, 3⟩] (fun _ _ => none) (fun _ => [0, 1, 2])
        [] 0 false ⟨[(1, 10)], [(10, true)]⟩ 0 2 = .errored .noWorkers :=
  ⟨(C8_empty_leaseset_acquires_up_to_three [⟨1, 0, 0, 3, 3⟩] (fun _ _ => none)
      (fun _ => [0, 1, 2]) 0 ⟨[(1, 10), (1, 11)], []⟩ 0 2 (by decide)).1,
   (C8_empty_leaseset_acquires_up_to_three [⟨1, 0, 0, 3, 3⟩] (fun _ _ => none)
      (fun _ => [0, 1, 2]) 0 ⟨[(1, 10)], [(10, true)]⟩ 0 2 (by decide)).2
     (by decide)⟩

/-- Claim C5 evaluated on the code: `read_range` performs no dynamic
scaling.  With a one-client lease set, four pool clients of which one is in
use (pressure 1/4 ≤ 0.75) and `|LeaseSet| = 1 < K_max = 6`, entry leaves
the client list and the pool unchanged (no `try_acquire_one` call exists in
the reader); with all four clients in use (pressure 1 > 0.75) and a
two-client lease set, entry releases nothing.  The claimed scale-up /
scale-down hooks are absent from `read_range`. -/
theorem C5_no_dynamic_scaling_at_entry :
    (read_range_entry [10] 0 false ⟨[(1, 10), (1, 11), (1, 12), (1, 13)], [(10, true)]⟩
        = (.proceed [10] 10 1, ⟨[(1, 10), (1, 11), (1, 12), (1, 13)], [(10, true)]⟩)
      ∧ 4 * (pool_pressure ⟨[(1, 10), (1, 11), (1, 12), (1, 13)], [(10, true)]⟩).1
          ≤ 3 * (pool_pressure ⟨[(1, 10), (1, 11), (1, 12), (1, 13)], [(10, true)]⟩).2
      ∧ ([10] : List Nat).length < 6)
    ∧ (read_range_entry [10, 11] 0 false
          ⟨[(1, 10), (1, 11), (1, 12), (1, 13)],
           [(10, true), (11, true), (12, true), (13, true)]⟩
        = (.proceed [10, 11] 10 1,
           ⟨[(1, 10), (1, 11), (1, 12), (1, 13)],
            [(10, true), (11, true), (12, true), (13, true)]⟩)
      ∧ 3 * (pool_pressure ⟨[(1, 10), (1, 11), (1, 12), (1, 13)],
            [(10, true), (11, true), (12, true), (13, true)]⟩).2
          < 4 * (pool_pressure ⟨[(1, 10), (1, 11), (1, 12), (1, 13)],
            [(10, true), (11, true), (12, true), (13, true)]⟩).1) := by
  decide

/-- Claim C3 evaluated on the code: `release_reader` on a cached persistent
reader pops the registry entry and then raises
`AttributeError` reading `reader._active_streams` — an attribute
`VirtualStreamReader.__init__` never creates — before setting
`_force_released` or releasing any client.  The error branch the claim
calls unreachable is taken on every cached entry. -/
theorem C3_release_reader_attribute_error :
    release_reader [(7, persistentReader)] 7
      = ⟨[], some persistentReader, [], some (.attributeError .active_streams)⟩ := by
  decide

/-- Claim C2 evaluated on the code: after `release_reader`, the old reader
still yields bytes.  The release itself dies with `AttributeError` before
setting `_force_released` (which `read_range` never reads anyway — the
reader object does not even have the attribute), and a `read_range` started
afterwards re-acquires clients through `_ensure_workers` and yields the
full requested range: 3 bytes here, not zero. -/
theorem C2_read_range_after_release_still_yields :
    (release_reader [(7, persistentReader)] 7).error
      = some (.attributeError .active_streams)
    ∧ hasattr persistentReader .force_released = false
    ∧ (yieldedBytes (read_range_run [⟨1, 0, 0, 3, 3⟩] (fun _ _ => none)
        (fun _ => [40, 41, 42]) [] 0 false ⟨[(1, 5)], []⟩ 0 3)).length = 3 := by
  decide

end Tlex
